import Mathlib

/-!
Verification of the `perfect_rand` permutation generator (a Rust port of the
masscan Blackrock cipher).  The definitions below are a shallow embedding of
`src/lib.rs`: `u64`/`u32`/`usize` values are modelled as `Nat`, with masking
written exactly as in the source (`&&&`, `>>>`, `<<<`, with `<<<` truncated to
64 bits where the Rust `u64` shift would truncate).  The one floating-point
operation in the source, `(range as f64).sqrt() as u64`, is modelled as
`Nat.sqrt range`.  The two agree for every `range < 2^52`: there the input is
exact in `f64` and the correctly rounded square root of a non-square lies
more than half an ulp below the next integer, so truncation yields the
integer square root.  They can disagree above that — first at
`range = (2^26 + 1)^2 - 1`, where the `f64` square root rounds up to exactly
`2^26 + 1` while the integer square root is `2^26` — so every statement
about the value of the derived parameters is either at a concrete
`range < 2^52` or carries that bound as a hypothesis; the bijection,
termination and identity theorems need no such bound because they only use
that the masks are powers of two matching `a_bits`, which holds whatever the
square root call returns.  The unbounded `while` loop in `shuffle` is
modelled with explicit fuel returning `Option Nat`: the Rust call returns `v`
iff some fuel yields `some v`, and it diverges iff every fuel yields `none`.
-/

/-- Expanded DES S-box `SB1` from the source. -/
def SB1 : List Nat := [
  0x01010400, 0x00000000, 0x00010000, 0x01010404,
  0x01010004, 0x00010404, 0x00000004, 0x00010000,
  0x00000400, 0x01010400, 0x01010404, 0x00000400,
  0x01000404, 0x01010004, 0x01000000, 0x00000004,
  0x00000404, 0x01000400, 0x01000400, 0x00010400,
  0x00010400, 0x01010000, 0x01010000, 0x01000404,
  0x00010004, 0x01000004, 0x01000004, 0x00010004,
  0x00000000, 0x00000404, 0x00010404, 0x01000000,
  0x00010000, 0x01010404, 0x00000004, 0x01010000,
  0x01010400, 0x01000000, 0x01000000, 0x00000400,
  0x01010004, 0x00010000, 0x00010400, 0x01000004,
  0x00000400, 0x00000004, 0x01000404, 0x00010404,
  0x01010404, 0x00010004, 0x01010000, 0x01000404,
  0x01000004, 0x00000404, 0x00010404, 0x01010400,
  0x00000404, 0x01000400, 0x01000400, 0x00000000,
  0x00010004, 0x00010400, 0x00000000, 0x01010004]

/-- Expanded DES S-box `SB2` from the source. -/
def SB2 : List Nat := [
  0x80108020, 0x80008000, 0x00008000, 0x00108020,
  0x00100000, 0x00000020, 0x80100020, 0x80008020,
  0x80000020, 0x80108020, 0x80108000, 0x80000000,
  0x80008000, 0x00100000, 0x00000020, 0x80100020,
  0x00108000, 0x00100020, 0x80008020, 0x00000000,
  0x80000000, 0x00008000, 0x00108020, 0x80100000,
  0x00100020, 0x80000020, 0x00000000, 0x00108000,
  0x00008020, 0x80108000, 0x80100000, 0x00008020,
  0x00000000, 0x00108020, 0x80100020, 0x00100000,
  0x80008020, 0x80100000, 0x80108000, 0x00008000,
  0x80100000, 0x80008000, 0x00000020, 0x80108020,
  0x00108020, 0x00000020, 0x00008000, 0x80000000,
  0x00008020, 0x80108000, 0x00100000, 0x80000020,
  0x00100020, 0x80008020, 0x80000020, 0x00100020,
  0x00108000, 0x00000000, 0x80008000, 0x00008020,
  0x80000000, 0x80100020, 0x80108020, 0x00108000]

/-- Expanded DES S-box `SB3` from the source. -/
def SB3 : List Nat := [
  0x00000208, 0x08020200, 0x00000000, 0x08020008,
  0x08000200, 0x00000000, 0x00020208, 0x08000200,
  0x00020008, 0x08000008, 0x08000008, 0x00020000,
  0x08020208, 0x00020008, 0x08020000, 0x00000208,
  0x08000000, 0x00000008, 0x08020200, 0x00000200,
  0x00020200, 0x08020000, 0x08020008, 0x00020208,
  0x08000208, 0x00020200, 0x00020000, 0x08000208,
  0x00000008, 0x08020208, 0x00000200, 0x08000000,
  0x08020200, 0x08000000, 0x00020008, 0x00000208,
  0x00020000, 0x08020200, 0x08000200, 0x00000000,
  0x00000200, 0x00020008, 0x08020208, 0x08000200,
  0x08000008, 0x00000200, 0x00000000, 0x08020008,
  0x08000208, 0x00020000, 0x08000000, 0x08020208,
  0x00000008, 0x00020208, 0x00020200, 0x08000008,
  0x08020000, 0x08000208, 0x00000208, 0x08020000,
  0x00020208, 0x00000008, 0x08020008, 0x00020200]

/-- Expanded DES S-box `SB4` from the source. -/
def SB4 : List Nat := [
  0x00802001, 0x00002081, 0x00002081, 0x00000080,
  0x00802080, 0x00800081, 0x00800001, 0x00002001,
  0x00000000, 0x00802000, 0x00802000, 0x00802081,
  0x00000081, 0x00000000, 0x00800080, 0x00800001,
  0x00000001, 0x00002000, 0x00800000, 0x00802001,
  0x00000080, 0x00800000, 0x00002001, 0x00002080,
  0x00800081, 0x00000001, 0x00002080, 0x00800080,
  0x00002000, 0x00802080, 0x00802081, 0x00000081,
  0x00800080, 0x00800001, 0x00802000, 0x00802081,
  0x00000081, 0x00000000, 0x00000000, 0x00802000,
  0x00002080, 0x00800080, 0x00800081, 0x00000001,
  0x00802001, 0x00002081, 0x00002081, 0x00000080,
  0x00802081, 0x00000081, 0x00000001, 0x00002000,
  0x00800001, 0x00002001, 0x00802080, 0x00800081,
  0x00002001, 0x00002080, 0x00800000, 0x00802001,
  0x00000080, 0x00800000, 0x00002000, 0x00802080]

/-- Expanded DES S-box `SB5` from the source. -/
def SB5 : List Nat := [
  0x00000100, 0x02080100, 0x02080000, 0x42000100,
  0x00080000, 0x00000100, 0x40000000, 0x02080000,
  0x40080100, 0x00080000, 0x02000100, 0x40080100,
  0x42000100, 0x42080000, 0x00080100, 0x40000000,
  0x02000000, 0x40080000, 0x40080000, 0x00000000,
  0x40000100, 0x42080100, 0x42080100, 0x02000100,
  0x42080000, 0x40000100, 0x00000000, 0x42000000,
  0x02080100, 0x02000000, 0x42000000, 0x00080100,
  0x00080000, 0x42000100, 0x00000100, 0x02000000,
  0x40000000, 0x02080000, 0x42000100, 0x40080100,
  0x02000100, 0x40000000, 0x42080000, 0x02080100,
  0x40080100, 0x00000100, 0x02000000, 0x42080000,
  0x42080100, 0x00080100, 0x42000000, 0x42080100,
  0x02080000, 0x00000000, 0x40080000, 0x42000000,
  0x00080100, 0x02000100, 0x40000100, 0x00080000,
  0x00000000, 0x40080000, 0x02080100, 0x40000100]

/-- Expanded DES S-box `SB6` from the source. -/
def SB6 : List Nat := [
  0x20000010, 0x20400000, 0x00004000, 0x20404010,
  0x20400000, 0x00000010, 0x20404010, 0x00400000,
  0x20004000, 0x00404010, 0x00400000, 0x20000010,
  0x00400010, 0x20004000, 0x20000000, 0x00004010,
  0x00000000, 0x00400010, 0x20004010, 0x00004000,
  0x00404000, 0x20004010, 0x00000010, 0x20400010,
  0x20400010, 0x00000000, 0x00404010, 0x20404000,
  0x00004010, 0x00404000, 0x20404000, 0x20000000,
  0x20004000, 0x00000010, 0x20400010, 0x00404000,
  0x20404010, 0x00400000, 0x00004010, 0x20000010,
  0x00400000, 0x20004000, 0x20000000, 0x00004010,
  0x20000010, 0x20404010, 0x00404000, 0x20400000,
  0x00404010, 0x20404000, 0x00000000, 0x20400010,
  0x00000010, 0x00004000, 0x20400000, 0x00404010,
  0x00004000, 0x00400010, 0x20004010, 0x00000000,
  0x20404000, 0x20000000, 0x00400010, 0x20004010]

/-- Expanded DES S-box `SB7` from the source. -/
def SB7 : List Nat := [
  0x00200000, 0x04200002, 0x04000802, 0x00000000,
  0x00000800, 0x04000802, 0x00200802, 0x04200800,
  0x04200802, 0x00200000, 0x00000000, 0x04000002,
  0x00000002, 0x04000000, 0x04200002, 0x00000802,
  0x04000800, 0x00200802, 0x00200002, 0x04000800,
  0x04000002, 0x04200000, 0x04200800, 0x00200002,
  0x04200000, 0x00000800, 0x00000802, 0x04200802,
  0x00200800, 0x00000002, 0x04000000, 0x00200800,
  0x04000000, 0x00200800, 0x00200000, 0x04000802,
  0x04000802, 0x04200002, 0x04200002, 0x00000002,
  0x00200002, 0x04000000, 0x04000800, 0x00200000,
  0x04200800, 0x00000802, 0x00200802, 0x04200800,
  0x00000802, 0x04000002, 0x04200802, 0x04200000,
  0x00200800, 0x00000000, 0x00000002, 0x04200802,
  0x00000000, 0x00200802, 0x04200000, 0x00000800,
  0x04000002, 0x04000800, 0x00000800, 0x00200002]

/-- Expanded DES S-box `SB8` from the source. -/
def SB8 : List Nat := [
  0x10001040, 0x00001000, 0x00040000, 0x10041040,
  0x10000000, 0x10001040, 0x00000040, 0x10000000,
  0x00040040, 0x10040000, 0x10041040, 0x00041000,
  0x10041000, 0x00041040, 0x00001000, 0x00000040,
  0x10040000, 0x10000040, 0x10001000, 0x00001040,
  0x00041000, 0x00040040, 0x10040040, 0x10041000,
  0x00001040, 0x00000000, 0x00000000, 0x10040040,
  0x10000040, 0x10001000, 0x00041040, 0x00040000,
  0x00041040, 0x00040000, 0x10041000, 0x00001000,
  0x00000040, 0x10040040, 0x00001000, 0x00041040,
  0x10001000, 0x00000040, 0x10000040, 0x10040000,
  0x10040040, 0x10000000, 0x00040000, 0x10001040,
  0x00000000, 0x10041040, 0x00040040, 0x10000040,
  0x10040000, 0x10001000, 0x10001040, 0x00000000,
  0x10041040, 0x00041000, 0x00041000, 0x00001040,
  0x00001040, 0x00040040, 0x10000000, 0x10041000]

/-- The loop body of the source's `count_bits`, with explicit fuel; fuel 64
covers every `u64` argument (the loop runs at most 64 times on a `u64`). -/
def count_bits_go : Nat → Nat → Nat → Nat
  | 0, _, bits => bits
  | fuel + 1, num, bits => if num >>> bits > 1 then count_bits_go fuel num (bits + 1) else bits

/-- `count_bits` from the source: `bits = 0; while (num >> bits) > 1 { bits += 1 }`. -/
def count_bits (num : Nat) : Nat := count_bits_go 64 num 0

/-- The doubling loop computing `u64::next_power_of_two`, with explicit fuel;
fuel 64 covers every `u64` argument. -/
def npot_go (n : Nat) : Nat → Nat → Nat
  | 0, acc => acc
  | fuel + 1, acc => if n ≤ acc then acc else npot_go n fuel (2 * acc)

/-- Rust `u64::next_power_of_two`: the smallest power of two that is `≥ n`
(and `1` for `n = 0`), modelled semantically by a doubling loop. -/
def next_power_of_two (n : Nat) : Nat := npot_go n 64 1

/-- The `PerfectRng` struct from the source (commented-out fields omitted,
as in the source). -/
structure PerfectRng where
  range : Nat
  seed : Nat
  rounds : Nat
  a_bits : Nat
  a_mask : Nat
  b_mask : Nat
deriving Repr, DecidableEq

/-- `PerfectRng::new`.  `(range as f64).sqrt() as u64` is modelled as
`Nat.sqrt range`; as explained in the file header this is exact for every
`range < 2^52` (which covers every concrete range used in this file) but can
differ above, where the `f64` square root may round up across an integer
boundary. -/
def PerfectRng.new (range seed rounds : Nat) : PerfectRng :=
  let a := next_power_of_two (Nat.sqrt range)
  let b := next_power_of_two (range / a)
  { range := range
    seed := seed
    rounds := rounds
    a_bits := count_bits a
    a_mask := a - 1
    b_mask := b - 1 }

/-- `PerfectRng::round`.  The seed rotation `(seed >> j) | (seed << (64 - j))`
keeps only the low 64 bits of the left shift, as the Rust `u64` shift does. -/
def PerfectRng.round (p : PerfectRng) (j right : Nat) : Nat :=
  let t := right ^^^ ((p.seed >>> j) ||| ((p.seed <<< (64 - j)) % 2 ^ 64))
  if j % 2 ≠ 0 then
    (SB8.getD (t &&& 0x3F) 0) ^^^
      (SB6.getD ((t >>> 8) &&& 0x3F) 0) ^^^
      (SB4.getD ((t >>> 16) &&& 0x3F) 0) ^^^
      (SB2.getD ((t >>> 24) &&& 0x3F) 0)
  else
    (SB7.getD (t &&& 0x3F) 0) ^^^
      (SB5.getD ((t >>> 8) &&& 0x3F) 0) ^^^
      (SB3.getD ((t >>> 16) &&& 0x3F) 0) ^^^
      (SB1.getD ((t >>> 24) &&& 0x3F) 0)

/-- The `while j <= self.rounds` loop of `PerfectRng::encrypt`, carrying the
`(left, right)` state.  Each iteration performs the two mix-and-swap steps of
the source's loop body and advances `j` by 2; the fuel argument only bounds
the recursion and is chosen large enough (`rounds + 1`) that the guard
`j ≤ rounds`, exactly as in the source, always decides termination. -/
def PerfectRng.encryptLoop (p : PerfectRng) : Nat → Nat → Nat × Nat → Nat × Nat
  | 0, _, lr => lr
  | fuel + 1, j, (left, right) =>
    if j ≤ p.rounds then
      let tmp := (left + p.round j right) &&& p.a_mask
      let left := right
      let right := tmp
      let tmp := (left + p.round (j + 1) right) &&& p.b_mask
      p.encryptLoop fuel (j + 2) (right, tmp)
    else (left, right)

/-- `PerfectRng::encrypt`. -/
def PerfectRng.encrypt (p : PerfectRng) (m : Nat) : Nat :=
  let lr := p.encryptLoop (p.rounds + 1) 1 (m &&& p.a_mask, m >>> p.a_bits)
  if p.rounds % 2 ≠ 0 then (lr.1 <<< p.a_bits) + lr.2
  else (lr.2 <<< p.a_bits) + lr.1

/-- The `while c >= self.range` cycle-walking loop of `PerfectRng::shuffle`,
with explicit fuel: `some c` is returned as soon as `c < range`, and `none`
means the loop was still running when the fuel ran out. -/
def PerfectRng.shuffleGo (p : PerfectRng) : Nat → Nat → Option Nat
  | 0, c => if c < p.range then some c else none
  | fuel + 1, c => if c < p.range then some c else p.shuffleGo fuel (p.encrypt c)

/-- `PerfectRng::shuffle`, fuelled: the Rust call returns `v` iff
`shuffle fuel m = some v` for some fuel, and diverges iff the result is
`none` for every fuel. -/
def PerfectRng.shuffle (p : PerfectRng) (fuel m : Nat) : Option Nat :=
  p.shuffleGo fuel (p.encrypt m)

/-- One mix-and-swap step as the spec (§4.3) words it: the mask is chosen by
the parity of the round index `j` (odd `j` → `a_mask`, even `j` → `b_mask`),
the round function output is added and masked, then the halves swap. -/
def PerfectRng.specStep (p : PerfectRng) (j : Nat) (lr : Nat × Nat) : Nat × Nat :=
  let mask := if j % 2 ≠ 0 then p.a_mask else p.b_mask
  (lr.2, (lr.1 + p.round j lr.2) &&& mask)

/-- `n` consecutive spec steps, at round indices `j, j+1, …, j+n-1`. -/
def PerfectRng.specSteps (p : PerfectRng) : Nat → Nat → Nat × Nat → Nat × Nat
  | 0, _, lr => lr
  | n + 1, j, lr => p.specSteps n (j + 1) (p.specStep j lr)

/-- The Feistel network exactly as the spec's words describe it (§4.3), but
parameterized by the number `n` of mix-and-swap steps performed (round
indices `1..=n`), with the final recombination keyed on the parity of
`p.rounds` as both the spec and the source state.  The spec's claim that
`encrypt` performs exactly `rounds` steps is `encrypt = encryptSteps rounds`. -/
def PerfectRng.encryptSteps (p : PerfectRng) (n m : Nat) : Nat :=
  let lr := p.specSteps n 1 (m &&& p.a_mask, m >>> p.a_bits)
  if p.rounds % 2 ≠ 0 then (lr.1 <<< p.a_bits) + lr.2
  else (lr.2 <<< p.a_bits) + lr.1

/-- Proof helper (not in the source): inverse of one spec step, recovering the
pre-step state from the post-step state. -/
def PerfectRng.invStep (p : PerfectRng) (j : Nat) (lr : Nat × Nat) : Nat × Nat :=
  let mask := if j % 2 ≠ 0 then p.a_mask else p.b_mask
  ((lr.2 + (mask + 1) - p.round j lr.1 % (mask + 1)) % (mask + 1), lr.1)

/-- Proof helper: inverse of `specSteps`, undoing steps `j+n-1, …, j+1, j`. -/
def PerfectRng.invSteps (p : PerfectRng) : Nat → Nat → Nat × Nat → Nat × Nat
  | 0, _, lr => lr
  | n + 1, j, lr => p.invStep j (p.invSteps n (j + 1) lr)

/-- Proof helper: inverse of `encrypt` when the round count is even, with `n`
the number of mix-and-swap steps that were performed. -/
def PerfectRng.decryptEven (p : PerfectRng) (n c : Nat) : Nat :=
  let lr := p.invSteps n 1 (c &&& p.a_mask, c >>> p.a_bits)
  (lr.2 <<< p.a_bits) + lr.1

/-! ### Basic unfolding lemmas -/

theorem PerfectRng.shuffleGo_zero (p : PerfectRng) (c : Nat) :
    p.shuffleGo 0 c = if c < p.range then some c else none := rfl

theorem PerfectRng.shuffleGo_succ (p : PerfectRng) (fuel c : Nat) :
    p.shuffleGo (fuel + 1) c =
      if c < p.range then some c else p.shuffleGo fuel (p.encrypt c) := rfl

/-- Exact-value characterization of `Nat.sqrt`, which is defined by
well-founded recursion and so does not reduce inside `decide`. -/
theorem sqrt_eq_exact {n k : Nat} (h1 : k * k ≤ n) (h2 : n < (k + 1) * (k + 1)) :
    Nat.sqrt n = k :=
  Nat.le_antisymm (Nat.lt_succ_iff.mp (Nat.sqrt_lt.mpr h2)) (Nat.le_sqrt.mpr h1)

/-- Evaluated parameters for `range = 10, seed = 0, rounds = 4`. -/
theorem new_ten_four_eq : PerfectRng.new 10 0 4 = ⟨10, 0, 4, 2, 3, 1⟩ := by
  have hs : Nat.sqrt 10 = 3 := sqrt_eq_exact (by decide) (by decide)
  simp only [PerfectRng.new, hs]
  decide

/-- Evaluated parameters for `range = 10, seed = 0, rounds = 1`. -/
theorem new_ten_one_eq : PerfectRng.new 10 0 1 = ⟨10, 0, 1, 2, 3, 1⟩ := by
  have hs : Nat.sqrt 10 = 3 := sqrt_eq_exact (by decide) (by decide)
  simp only [PerfectRng.new, hs]
  decide

/-- Evaluated parameters for `range = 8, seed = 0, rounds = 4`. -/
theorem new_eight_eq : PerfectRng.new 8 0 4 = ⟨8, 0, 4, 1, 1, 3⟩ := by
  have hs : Nat.sqrt 8 = 2 := sqrt_eq_exact (by decide) (by decide)
  simp only [PerfectRng.new, hs]
  decide

/-- Evaluated parameters for `range = 16, seed = 0, rounds = 4`. -/
theorem new_sixteen_eq : PerfectRng.new 16 0 4 = ⟨16, 0, 4, 2, 3, 3⟩ := by
  have hs : Nat.sqrt 16 = 4 := sqrt_eq_exact (by decide) (by decide)
  simp only [PerfectRng.new, hs]
  decide

/-- Evaluated parameters for `range = 9, seed = 0, rounds = 3`. -/
theorem new_nine_eq : PerfectRng.new 9 0 3 = ⟨9, 0, 3, 2, 3, 1⟩ := by
  have hs : Nat.sqrt 9 = 3 := sqrt_eq_exact (by decide) (by decide)
  simp only [PerfectRng.new, hs]
  decide

/-! ### Concrete evaluation theorems for the refuted claims -/

/-- C1: the spec's bijection guarantee fails on the code.  For
`range = 10, seed = 0, rounds = 4` the derived masks give the superset
`[0, 8)`, every `shuffle` output lies in it, and the two distinct valid
inputs `0` and `8` collide on the output `2`, so `shuffle` is not injective
on `[0, 10)` and `{shuffle(0), …, shuffle(9)} ≠ {0, …, 9}`. -/
theorem shuffle_collides_on_range_ten :
    (PerfectRng.new 10 0 4).shuffle 0 0 = some 2 ∧
      (PerfectRng.new 10 0 4).shuffle 0 8 = some 2 ∧ (0 : Nat) ≠ 8 := by
  rw [new_ten_four_eq]
  decide

/-- C2: the invariant `2^(a_bits + b_bits) ≥ range` fails on the code: for
`range = 10` the construction yields `a_mask = 3`, `b_mask = 1`, whose
superset `(a_mask + 1) * (b_mask + 1) = 8` is smaller than the range. -/
theorem superset_smaller_than_range_ten :
    ((PerfectRng.new 10 0 4).a_mask + 1) * ((PerfectRng.new 10 0 4).b_mask + 1) <
      (PerfectRng.new 10 0 4).range := by
  rw [new_ten_four_eq]
  decide

/-- C3 counterexample: for an odd round count `encrypt` is not a bijection on
the superset `[0, (a_mask+1)*(b_mask+1))`: with `range = 10, seed = 0,
rounds = 1` the superset is `[0, 8)` but `encrypt 1 = 8` escapes it. -/
theorem encrypt_odd_rounds_not_bijOn_superset :
    ¬ Set.BijOn (PerfectRng.new 10 0 1).encrypt
      (Set.Iio (((PerfectRng.new 10 0 1).a_mask + 1) * ((PerfectRng.new 10 0 1).b_mask + 1)))
      (Set.Iio (((PerfectRng.new 10 0 1).a_mask + 1) * ((PerfectRng.new 10 0 1).b_mask + 1))) := by
  rw [new_ten_one_eq]
  intro h
  have hmem : (1 : Nat) ∈ Set.Iio
      (((⟨10, 0, 1, 2, 3, 1⟩ : PerfectRng).a_mask + 1) *
        ((⟨10, 0, 1, 2, 3, 1⟩ : PerfectRng).b_mask + 1)) := by
    rw [Set.mem_Iio]
    decide
  have hesc := h.1 hmem
  rw [Set.mem_Iio] at hesc
  revert hesc
  decide

/-- C4 counterexample: `encrypt` does not perform exactly `rounds`
mix-and-swap steps.  With `rounds = 1` (range 10, seed 0) the loop body runs
once but performs two steps (`j = 1` and `j = 2`), so the result differs from
the spec's one-step network already at input `0`. -/
theorem encrypt_differs_from_spec_round_count :
    (PerfectRng.new 10 0 1).encrypt 0 ≠
      (PerfectRng.new 10 0 1).encryptSteps (PerfectRng.new 10 0 1).rounds 0 := by
  rw [new_ten_one_eq]
  decide

/-- C5 counterexample: the split-formula claim fails at `range = 8`: with
`bits = ceil(log2 8) = 3` the claim predicts `b_bits = 1` and
`a_bits = 2 ≥ b_bits`, but the code derives `a_bits = 1` and
`b_mask = 3` (so `b_bits = 2 > a_bits`). -/
theorem a_bits_lt_b_bits_at_range_eight :
    (PerfectRng.new 8 0 4).a_bits < count_bits ((PerfectRng.new 8 0 4).b_mask + 1) := by
  rw [new_eight_eq]
  decide

/-- C6: constructing with `range = 0` is not rejected — `new` happily returns
a degenerate generator (`a = b = 1`, so both masks are zero), contradicting
the spec's requirement that construction fail.  (C10 shows every `shuffle`
call on it then diverges.) -/
theorem new_accepts_range_zero :
    PerfectRng.new 0 5 3 =
      { range := 0, seed := 5, rounds := 3, a_bits := 0, a_mask := 0, b_mask := 0 } := by
  decide

/-- C7 counterexample: a call with `i ≥ range` is not rejected: with
`range = 16, seed = 0, rounds = 4`, the out-of-range input `20` produces a
normal result. -/
theorem shuffle_out_of_range_returns :
    ∃ v, (PerfectRng.new 16 0 4).shuffle 0 20 = some v :=
  ⟨6, by rw [new_sixteen_eq]; decide⟩

/-- C7 amended: `shuffle` performs no validation of its input: an `i ≥ range`
is fed to `encrypt` unchanged (neither wrapped nor truncated) and the cycle
walk returns an in-range value as for any other input; concretely
`shuffle 20 = 6 < 16` for `range = 16, seed = 0, rounds = 4`. -/
theorem shuffle_out_of_range_cycle_walks :
    (PerfectRng.new 16 0 4).shuffle 0 20 = some 6 ∧
      6 < (PerfectRng.new 16 0 4).range ∧ (PerfectRng.new 16 0 4).range ≤ 20 := by
  rw [new_sixteen_eq]
  decide

/-- Helper: with `range = 9, seed = 0, rounds = 3` the walk from the valid
input `1` yields `none` at every fuel — it is stuck in the cycle
`12 → 9 → 12` whose members are all `≥ 9`. -/
theorem shuffle_range_nine_walk_none :
    ∀ fuel, (PerfectRng.new 9 0 3).shuffle fuel 1 = none := by
  have key : ∀ f, (PerfectRng.new 9 0 3).shuffleGo f 12 = none ∧
      (PerfectRng.new 9 0 3).shuffleGo f 9 = none := by
    intro f
    induction f with
    | zero => exact ⟨by rw [new_nine_eq]; decide, by rw [new_nine_eq]; decide⟩
    | succ f ih =>
      refine ⟨?_, ?_⟩
      · rw [PerfectRng.shuffleGo_succ, if_neg (by rw [new_nine_eq]; decide),
          (by rw [new_nine_eq]; decide : (PerfectRng.new 9 0 3).encrypt 12 = 9)]
        exact ih.2
      · rw [PerfectRng.shuffleGo_succ, if_neg (by rw [new_nine_eq]; decide),
          (by rw [new_nine_eq]; decide : (PerfectRng.new 9 0 3).encrypt 9 = 12)]
        exact ih.1
  intro fuel
  show (PerfectRng.new 9 0 3).shuffleGo fuel ((PerfectRng.new 9 0 3).encrypt 1) = none
  rw [(by rw [new_nine_eq]; decide : (PerfectRng.new 9 0 3).encrypt 1 = 12)]
  exact (key fuel).1

/-- C8 counterexample: the cycle walk need not terminate.  With `range = 9,
seed = 0, rounds = 3` (odd), `encrypt` is not a permutation of the superset
and the valid input `1` walks into the cycle `12 → 9 → 12` whose members are
all `≥ 9`: no amount of fuel makes `shuffle 1` return. -/
theorem shuffle_loops_forever_range_nine :
    ¬ ∃ fuel v, (PerfectRng.new 9 0 3).shuffle fuel 1 = some v := by
  rintro ⟨fuel, v, hv⟩
  rw [shuffle_range_nine_walk_none fuel] at hv
  exact Option.noConfusion hv

/-- Helper: when `range = 0` the guard `c ≥ range` of the cycle-walk loop
holds for every `c`, so the loop never exits. -/
theorem shuffleGo_range_zero (p : PerfectRng) (h : p.range = 0) :
    ∀ fuel c, p.shuffleGo fuel c = none := by
  intro fuel
  induction fuel with
  | zero =>
    intro c
    rw [PerfectRng.shuffleGo_zero, if_neg (by rw [h]; exact Nat.not_lt_zero c)]
  | succ f ih =>
    intro c
    rw [PerfectRng.shuffleGo_succ, if_neg (by rw [h]; exact Nat.not_lt_zero c)]
    exact ih _

/-- C10: `new 0 seed rounds` produces a (degenerate) generator rather than
failing, and on it every `shuffle` call diverges: the loop guard
`c ≥ range = 0` holds for every `c`, so no fuel suffices. -/
theorem shuffle_range_zero_diverges (seed rounds m fuel : Nat) :
    (PerfectRng.new 0 seed rounds).shuffle fuel m = none :=
  shuffleGo_range_zero _ rfl fuel _

/-! ### Parameter derivation: `next_power_of_two` and `count_bits` -/

/-- Characterization of the `next_power_of_two` doubling loop: started at the
power `2 ^ i` with enough fuel it returns the least power of two `≥ n` among
those `≥ 2 ^ i`. -/
theorem npot_go_spec (n : Nat) :
    ∀ fuel i, n ≤ 2 ^ i * 2 ^ fuel →
      ∃ k, npot_go n fuel (2 ^ i) = 2 ^ k ∧ i ≤ k ∧ n ≤ 2 ^ k ∧
        ∀ j, i ≤ j → n ≤ 2 ^ j → k ≤ j := by
  intro fuel
  induction fuel with
  | zero =>
    intro i hle
    rw [Nat.pow_zero, Nat.mul_one] at hle
    exact ⟨i, rfl, Nat.le_refl i, hle, fun j hij _ => hij⟩
  | succ fuel ih =>
    intro i hle
    simp only [npot_go]
    by_cases h : n ≤ 2 ^ i
    · rw [if_pos h]
      exact ⟨i, rfl, Nat.le_refl i, h, fun j hij _ => hij⟩
    · rw [if_neg h]
      have h2 : 2 * 2 ^ i = 2 ^ (i + 1) := by
        rw [Nat.pow_succ, Nat.mul_comm]
      have hle' : n ≤ 2 ^ (i + 1) * 2 ^ fuel := by
        have e1 : 2 ^ i * 2 ^ (fuel + 1) = 2 ^ (i + 1) * 2 ^ fuel := by
          rw [← Nat.pow_add, ← Nat.pow_add]
          congr 1
          omega
        rw [← e1]
        exact hle
      rw [h2]
      obtain ⟨k, hk, hik, hnk, hmin⟩ := ih (i + 1) hle'
      refine ⟨k, hk, by omega, hnk, fun j hij hnj => ?_⟩
      have hij' : i + 1 ≤ j := by
        rcases Nat.lt_or_ge i j with h' | h'
        · omega
        · exact absurd (le_trans hnj (Nat.pow_le_pow_right (by omega) (by omega))) h
      exact hmin j hij' hnj

/-- `next_power_of_two n` is the least power of two `≥ n`, for every `u64`. -/
theorem next_power_of_two_spec (n : Nat) (hn : n ≤ 2 ^ 64) :
    ∃ k, next_power_of_two n = 2 ^ k ∧ n ≤ 2 ^ k ∧ ∀ j, n ≤ 2 ^ j → k ≤ j := by
  obtain ⟨k, hk, _, hnk, hmin⟩ := npot_go_spec n 64 0 (by simpa using hn)
  exact ⟨k, hk, hnk, fun j hj => hmin j (Nat.zero_le j) hj⟩

/-- The `count_bits` loop applied to a power of two returns its exponent. -/
theorem count_bits_go_pow (k : Nat) :
    ∀ fuel bits, bits ≤ k → k ≤ bits + fuel → count_bits_go fuel (2 ^ k) bits = k := by
  intro fuel
  induction fuel with
  | zero =>
    intro bits h1 h2
    simp only [count_bits_go]
    omega
  | succ fuel ih =>
    intro bits h1 h2
    simp only [count_bits_go]
    have hshift : 2 ^ k >>> bits = 2 ^ (k - bits) := by
      rw [Nat.shiftRight_eq_div_pow]
      exact Nat.pow_div h1 (by omega)
    rw [hshift]
    by_cases hbk : bits < k
    · rw [if_pos (Nat.one_lt_two_pow_iff.mpr (by omega))]
      exact ih (bits + 1) (by omega) (by omega)
    · have h0 : k - bits = 0 := by omega
      rw [h0, if_neg (by decide)]
      omega

/-- `count_bits (2 ^ k) = k` for every exponent a `u64` can carry. -/
theorem count_bits_pow (k : Nat) (hk : k ≤ 64) : count_bits (2 ^ k) = k :=
  count_bits_go_pow k 64 0 (Nat.zero_le k) (by omega)

/-! ### The fields of `PerfectRng.new` -/

theorem new_range_eq (range seed rounds : Nat) :
    (PerfectRng.new range seed rounds).range = range := rfl

theorem new_rounds_eq (range seed rounds : Nat) :
    (PerfectRng.new range seed rounds).rounds = rounds := rfl

theorem new_a_bits_eq (range seed rounds : Nat) :
    (PerfectRng.new range seed rounds).a_bits =
      count_bits (next_power_of_two (Nat.sqrt range)) := rfl

theorem new_a_mask_eq (range seed rounds : Nat) :
    (PerfectRng.new range seed rounds).a_mask =
      next_power_of_two (Nat.sqrt range) - 1 := rfl

theorem new_b_mask_eq (range seed rounds : Nat) :
    (PerfectRng.new range seed rounds).b_mask =
      next_power_of_two (range / next_power_of_two (Nat.sqrt range)) - 1 := rfl

/-- For every `u64` range, `a_mask + 1` is the power of two `2 ^ a_bits`. -/
theorem new_a_mask_pow (range seed rounds : Nat) (hr : range ≤ 2 ^ 64) :
    (PerfectRng.new range seed rounds).a_mask + 1 =
      2 ^ (PerfectRng.new range seed rounds).a_bits := by
  have hs : Nat.sqrt range ≤ 2 ^ 64 := le_trans (Nat.sqrt_le_self range) hr
  obtain ⟨k, hk, hnk, hmin⟩ := next_power_of_two_spec (Nat.sqrt range) hs
  have hk64 : k ≤ 64 := hmin 64 hs
  rw [new_a_mask_eq, new_a_bits_eq, hk, count_bits_pow k hk64,
    Nat.sub_add_cancel Nat.one_le_two_pow]

/-- For every `u64` range, the `a` of the construction is `2 ^ a_bits`. -/
theorem new_a_pow (range seed rounds : Nat) (hr : range ≤ 2 ^ 64) :
    next_power_of_two (Nat.sqrt range) =
      2 ^ (PerfectRng.new range seed rounds).a_bits := by
  have hs : Nat.sqrt range ≤ 2 ^ 64 := le_trans (Nat.sqrt_le_self range) hr
  obtain ⟨k, hk, hnk, hmin⟩ := next_power_of_two_spec (Nat.sqrt range) hs
  have hk64 : k ≤ 64 := hmin 64 hs
  rw [new_a_bits_eq, hk, count_bits_pow k hk64]

/-- For every `u64` range, `b_mask + 1` is a power of two. -/
theorem new_b_mask_pow (range seed rounds : Nat) (hr : range ≤ 2 ^ 64) :
    ∃ B, (PerfectRng.new range seed rounds).b_mask + 1 = 2 ^ B := by
  have hd : range / next_power_of_two (Nat.sqrt range) ≤ 2 ^ 64 :=
    le_trans (Nat.div_le_self _ _) hr
  obtain ⟨B, hB, _, _⟩ := next_power_of_two_spec _ hd
  exact ⟨B, by rw [new_b_mask_eq, hB, Nat.sub_add_cancel Nat.one_le_two_pow]⟩

/-- C5 amended: what the construction actually derives, for every
`range < 2^52` — the domain on which the source's `f64` square root is
exactly the integer square root (see the header; at larger ranges, e.g.
`(2^26 + 1)^2 - 1`, the `f64` square root rounds up across an integer
boundary and the code derives the next power of two of that larger value).
On this domain `a_mask + 1` is the least power of two `≥ ⌊√range⌋`, its
exponent is `a_bits`, and `b_mask + 1` is the least power of two
`≥ range / 2 ^ a_bits`.  (The claimed split `b_bits = bits / 2`,
`a_bits = bits - b_bits` with `bits = ceil(log2 range)`, and the inequality
`a_bits ≥ b_bits`, both fail, e.g. at `range = 8`.) -/
theorem new_splits_by_sqrt (range seed rounds : Nat) (hr : range < 2 ^ 52) :
    (Nat.sqrt range ≤ (PerfectRng.new range seed rounds).a_mask + 1 ∧
      (PerfectRng.new range seed rounds).a_mask + 1 =
        2 ^ (PerfectRng.new range seed rounds).a_bits ∧
      ∀ j, Nat.sqrt range ≤ 2 ^ j → (PerfectRng.new range seed rounds).a_bits ≤ j) ∧
    ∃ B, (PerfectRng.new range seed rounds).b_mask + 1 = 2 ^ B ∧
      range / 2 ^ (PerfectRng.new range seed rounds).a_bits ≤ 2 ^ B ∧
      ∀ j, range / 2 ^ (PerfectRng.new range seed rounds).a_bits ≤ 2 ^ j → B ≤ j := by
  have hr64 : range ≤ 2 ^ 64 := le_of_lt (lt_of_lt_of_le hr (by norm_num))
  have hs : Nat.sqrt range ≤ 2 ^ 64 := le_trans (Nat.sqrt_le_self range) hr64
  obtain ⟨k, hk, hnk, hmin⟩ := next_power_of_two_spec (Nat.sqrt range) hs
  have hk64 : k ≤ 64 := hmin 64 hs
  have habits : (PerfectRng.new range seed rounds).a_bits = k := by
    rw [new_a_bits_eq, hk, count_bits_pow k hk64]
  have hamask : (PerfectRng.new range seed rounds).a_mask + 1 = 2 ^ k := by
    rw [new_a_mask_eq, hk, Nat.sub_add_cancel Nat.one_le_two_pow]
  constructor
  · refine ⟨by rw [hamask]; exact hnk, by rw [hamask, habits], fun j hj => ?_⟩
    rw [habits]
    exact hmin j hj
  · have hd : range / next_power_of_two (Nat.sqrt range) ≤ 2 ^ 64 :=
      le_trans (Nat.div_le_self _ _) hr64
    obtain ⟨B, hB, hnB, hminB⟩ := next_power_of_two_spec _ hd
    refine ⟨B, ?_, ?_, ?_⟩
    · rw [new_b_mask_eq, hB, Nat.sub_add_cancel Nat.one_le_two_pow]
    · rw [habits, ← hk]
      exact hnB
    · intro j hj
      rw [habits, ← hk] at hj
      exact hminB j hj

/-- Witness for `new_splits_by_sqrt` at `range = 8, seed = 0, rounds = 4`. -/
theorem new_splits_by_sqrt_witness :
    (8 : Nat) < 2 ^ 52 ∧
      ((Nat.sqrt 8 ≤ (PerfectRng.new 8 0 4).a_mask + 1 ∧
        (PerfectRng.new 8 0 4).a_mask + 1 = 2 ^ (PerfectRng.new 8 0 4).a_bits ∧
        ∀ j, Nat.sqrt 8 ≤ 2 ^ j → (PerfectRng.new 8 0 4).a_bits ≤ j) ∧
      ∃ B, (PerfectRng.new 8 0 4).b_mask + 1 = 2 ^ B ∧
        8 / 2 ^ (PerfectRng.new 8 0 4).a_bits ≤ 2 ^ B ∧
        ∀ j, 8 / 2 ^ (PerfectRng.new 8 0 4).a_bits ≤ 2 ^ j → B ≤ j) :=
  ⟨by decide, new_splits_by_sqrt 8 0 4 (by decide)⟩

/-! ### The `encrypt` loop as a sequence of spec steps -/

theorem specSteps_zero (p : PerfectRng) (j : Nat) (lr : Nat × Nat) :
    p.specSteps 0 j lr = lr := rfl

theorem specSteps_succ (p : PerfectRng) (n j : Nat) (lr : Nat × Nat) :
    p.specSteps (n + 1) j lr = p.specSteps n (j + 1) (p.specStep j lr) := rfl

theorem invSteps_zero (p : PerfectRng) (j : Nat) (lr : Nat × Nat) :
    p.invSteps 0 j lr = lr := rfl

theorem invSteps_succ (p : PerfectRng) (n j : Nat) (lr : Nat × Nat) :
    p.invSteps (n + 1) j lr = p.invStep j (p.invSteps n (j + 1) lr) := rfl

theorem specStep_eq (p : PerfectRng) (j l r : Nat) :
    p.specStep j (l, r) =
      (r, (l + p.round j r) &&& (if j % 2 ≠ 0 then p.a_mask else p.b_mask)) := rfl

theorem invStep_eq (p : PerfectRng) (j l r : Nat) :
    p.invStep j (l, r) =
      (((r + ((if j % 2 ≠ 0 then p.a_mask else p.b_mask) + 1) -
          p.round j l % ((if j % 2 ≠ 0 then p.a_mask else p.b_mask) + 1)) %
          ((if j % 2 ≠ 0 then p.a_mask else p.b_mask) + 1)), l) := rfl

theorem encryptLoop_succ (p : PerfectRng) (fuel j left right : Nat) :
    p.encryptLoop (fuel + 1) j (left, right) =
      if j ≤ p.rounds then
        p.encryptLoop fuel (j + 2)
          ((left + p.round j right) &&& p.a_mask,
            (right + p.round (j + 1) ((left + p.round j right) &&& p.a_mask)) &&& p.b_mask)
      else (left, right) := rfl

/-- Two consecutive spec steps starting at an odd round index mix with
`a_mask` and then with `b_mask`, exactly like one iteration of the source's
loop body. -/
theorem specSteps_pair (p : PerfectRng) (n j : Nat) (hj : j % 2 = 1) (l r : Nat) :
    p.specSteps (n + 2) j (l, r) =
      p.specSteps n (j + 2)
        ((l + p.round j r) &&& p.a_mask,
          (r + p.round (j + 1) ((l + p.round j r) &&& p.a_mask)) &&& p.b_mask) := by
  have hj1 : (j + 1) % 2 = 0 := by omega
  rw [specSteps_succ, specStep_eq, if_pos (by omega : j % 2 ≠ 0),
    specSteps_succ, specStep_eq, if_neg (by omega : ¬ (j + 1) % 2 ≠ 0)]

/-- The source's `while j <= rounds` loop, entered at an odd `j` with enough
fuel, performs the spec steps `j, j+1, …` in pairs until the guard fails:
`2 * ((rounds + 2 - j) / 2)` steps in total. -/
theorem encryptLoop_eq_specSteps (p : PerfectRng) :
    ∀ fuel j l r, j % 2 = 1 → p.rounds + 2 ≤ 2 * fuel + j →
      p.encryptLoop fuel j (l, r) =
        p.specSteps (2 * ((p.rounds + 2 - j) / 2)) j (l, r) := by
  intro fuel
  induction fuel with
  | zero =>
    intro j l r hj hle
    have h0 : (p.rounds + 2 - j) / 2 = 0 := by omega
    rw [h0]
    rfl
  | succ fuel ih =>
    intro j l r hj hle
    rw [encryptLoop_succ]
    by_cases hcase : j ≤ p.rounds
    · rw [if_pos hcase, ih (j + 2) _ _ (by omega) (by omega)]
      have harith : 2 * ((p.rounds + 2 - j) / 2) =
          2 * ((p.rounds + 2 - (j + 2)) / 2) + 2 := by omega
      rw [harith, specSteps_pair p _ j hj]
    · rw [if_neg hcase]
      have h0 : (p.rounds + 2 - j) / 2 = 0 := by omega
      rw [h0]
      rfl

/-- `encrypt` computes the spec's Feistel network with `2 * ceil(rounds / 2)`
mix-and-swap steps (an extra step when `rounds` is odd). -/
theorem encrypt_spec_form (p : PerfectRng) (m : Nat) :
    p.encrypt m = p.encryptSteps (2 * ((p.rounds + 1) / 2)) m := by
  have h := encryptLoop_eq_specSteps p (p.rounds + 1) 1 (m &&& p.a_mask) (m >>> p.a_bits)
    (by omega) (by omega)
  rw [show p.rounds + 2 - 1 = p.rounds + 1 from by omega] at h
  simp only [PerfectRng.encrypt, PerfectRng.encryptSteps]
  rw [h]

/-- C4 amended: `encrypt` performs `2 * ceil(rounds / 2)` mix-and-swap steps
at round indices `1, …, 2 * ceil(rounds / 2)` — masking odd indices by
`a_mask` and even ones by `b_mask` — and recombines by the parity of
`rounds`; when `rounds` is odd this is one step more (index `rounds + 1`)
than the `rounds` iterations the claim states. -/
theorem encrypt_performs_padded_steps (p : PerfectRng) (m : Nat) :
    p.encrypt m = p.encryptSteps (2 * ((p.rounds + 1) / 2)) m :=
  encrypt_spec_form p m

/-- With `rounds = 0` the loop body never runs and the even recombination
reassembles the two unmodified halves: `encrypt` is the identity. -/
theorem encrypt_rounds_zero (p : PerfectRng)
    (hA : p.a_mask + 1 = 2 ^ p.a_bits) (hr0 : p.rounds = 0) (m : Nat) :
    p.encrypt m = m := by
  have hmask : p.a_mask = 2 ^ p.a_bits - 1 := by omega
  simp only [PerfectRng.encrypt]
  rw [hr0, encryptLoop_succ, hr0, if_neg (by decide : ¬ (1 : Nat) ≤ 0),
    if_neg (by decide : ¬ (0 : Nat) % 2 ≠ 0)]
  show ((m >>> p.a_bits) <<< p.a_bits) + (m &&& p.a_mask) = m
  rw [hmask, Nat.and_pow_two_sub_one_eq_mod, Nat.shiftRight_eq_div_pow, Nat.shiftLeft_eq,
    Nat.mul_comm]
  exact Nat.div_add_mod m (2 ^ p.a_bits)

/-- C9: a generator built with `rounds = 0` is accepted and shuffles every
valid input to itself: the Feistel loop never runs, `encrypt` is the
identity, and the cycle walk exits immediately with `i < range`. -/
theorem shuffle_zero_rounds_identity (range seed : Nat) (hrange : range ≤ 2 ^ 64)
    (h0 : 0 < range) (i : Nat) (hi : i < range) (fuel : Nat) :
    (PerfectRng.new range seed 0).shuffle fuel i = some i := by
  have hA := new_a_mask_pow range seed 0 hrange
  have hid : (PerfectRng.new range seed 0).encrypt i = i :=
    encrypt_rounds_zero _ hA rfl i
  rw [PerfectRng.shuffle, hid]
  cases fuel with
  | zero => rw [PerfectRng.shuffleGo_zero, new_range_eq, if_pos hi]
  | succ fuel => rw [PerfectRng.shuffleGo_succ, new_range_eq, if_pos hi]

/-- Witness for `shuffle_zero_rounds_identity` at
`range = 5, seed = 7, i = 3, fuel = 0`. -/
theorem shuffle_zero_rounds_identity_witness :
    (5 : Nat) ≤ 2 ^ 64 ∧ 0 < 5 ∧ 3 < 5 ∧ (PerfectRng.new 5 7 0).shuffle 0 3 = some 3 :=
  ⟨by decide, by decide, by decide,
    shuffle_zero_rounds_identity 5 7 (by decide) (by decide) 3 (by decide) 0⟩

/-! ### Invertibility of the Feistel steps -/

/-- Masking with `a_mask` is reduction modulo `2 ^ a_bits` whenever the mask
is one less than that power of two. -/
theorem mask_eq_mod_a (p : PerfectRng) (hA : p.a_mask + 1 = 2 ^ p.a_bits) (x : Nat) :
    x &&& p.a_mask = x % 2 ^ p.a_bits := by
  have h : p.a_mask = 2 ^ p.a_bits - 1 := by omega
  rw [h, Nat.and_pow_two_sub_one_eq_mod]

/-- Masking with `b_mask` is reduction modulo `2 ^ B` whenever the mask is
one less than that power of two. -/
theorem mask_eq_mod_b (p : PerfectRng) (B : Nat) (hB : p.b_mask + 1 = 2 ^ B) (x : Nat) :
    x &&& p.b_mask = x % 2 ^ B := by
  have h : p.b_mask = 2 ^ B - 1 := by omega
  rw [h, Nat.and_pow_two_sub_one_eq_mod]

/-- The additive mix of one Feistel step is undone modulo `M`: adding the
complement of the round value modulo `M` recovers the masked left half. -/
theorem mod_step_cancel (M l f : Nat) (hM : 0 < M) (hl : l < M) :
    ((l + f) % M + M - f % M) % M = l := by
  have ha : f % M < M := Nat.mod_lt f hM
  have h1 : (l + f) % M = (l + f % M) % M := by
    rw [Nat.add_mod, Nat.mod_eq_of_lt hl]
  rw [h1]
  rcases Nat.lt_or_ge (l + f % M) M with h | h
  · rw [Nat.mod_eq_of_lt h, show l + f % M + M - f % M = l + M from by omega,
      Nat.add_mod_right, Nat.mod_eq_of_lt hl]
  · have h2 : (l + f % M) % M = l + f % M - M := by
      rw [Nat.mod_eq_sub_mod h, Nat.mod_eq_of_lt (by omega)]
    rw [h2, show l + f % M - M + M - f % M = l from by omega, Nat.mod_eq_of_lt hl]

/-- `invStep` undoes a spec step at an odd round index. -/
theorem invStep_specStep_a (p : PerfectRng) (hA : p.a_mask + 1 = 2 ^ p.a_bits)
    (j l r : Nat) (hj : j % 2 = 1) (hl : l < 2 ^ p.a_bits) :
    p.invStep j (p.specStep j (l, r)) = (l, r) := by
  rw [specStep_eq, if_pos (by omega : j % 2 ≠ 0), invStep_eq,
    if_pos (by omega : j % 2 ≠ 0), mask_eq_mod_a p hA, hA,
    mod_step_cancel (2 ^ p.a_bits) l (p.round j r) (by positivity) hl]

/-- `invStep` undoes a spec step at an even round index. -/
theorem invStep_specStep_b (p : PerfectRng) (B : Nat) (hB : p.b_mask + 1 = 2 ^ B)
    (j l r : Nat) (hj : j % 2 = 0) (hl : l < 2 ^ B) :
    p.invStep j (p.specStep j (l, r)) = (l, r) := by
  rw [specStep_eq, if_neg (by omega : ¬ j % 2 ≠ 0), invStep_eq,
    if_neg (by omega : ¬ j % 2 ≠ 0), mask_eq_mod_b p B hB, hB,
    mod_step_cancel (2 ^ B) l (p.round j r) (by positivity) hl]

/-- The two halves stay below their mask widths across any number of pairs of
spec steps started at an odd round index. -/
theorem specSteps_pair_shape (p : PerfectRng) (hA : p.a_mask + 1 = 2 ^ p.a_bits)
    (B : Nat) (hB : p.b_mask + 1 = 2 ^ B) :
    ∀ k j l r, j % 2 = 1 → l < 2 ^ p.a_bits → r < 2 ^ B →
      (p.specSteps (2 * k) j (l, r)).1 < 2 ^ p.a_bits ∧
        (p.specSteps (2 * k) j (l, r)).2 < 2 ^ B := by
  intro k
  induction k with
  | zero => intro j l r _ hl hr; exact ⟨hl, hr⟩
  | succ k ih =>
    intro j l r hj hl hr
    rw [show 2 * (k + 1) = 2 * k + 2 from by omega, specSteps_pair p _ j hj]
    have h1 : (l + p.round j r) &&& p.a_mask < 2 ^ p.a_bits := by
      rw [mask_eq_mod_a p hA]
      exact Nat.mod_lt _ (by positivity)
    have h2 : (r + p.round (j + 1) ((l + p.round j r) &&& p.a_mask)) &&& p.b_mask < 2 ^ B := by
      rw [mask_eq_mod_b p B hB]
      exact Nat.mod_lt _ (by positivity)
    exact ih (j + 2) _ _ (by omega) h1 h2

/-- After at least one pair of spec steps both halves are masked, whatever
the starting state was. -/
theorem specSteps_pair_absorb (p : PerfectRng) (hA : p.a_mask + 1 = 2 ^ p.a_bits)
    (B : Nat) (hB : p.b_mask + 1 = 2 ^ B) (k j l r : Nat) (hj : j % 2 = 1) :
    (p.specSteps (2 * (k + 1)) j (l, r)).1 < 2 ^ p.a_bits ∧
      (p.specSteps (2 * (k + 1)) j (l, r)).2 < 2 ^ B := by
  rw [show 2 * (k + 1) = 2 * k + 2 from by omega, specSteps_pair p _ j hj]
  have h1 : (l + p.round j r) &&& p.a_mask < 2 ^ p.a_bits := by
    rw [mask_eq_mod_a p hA]
    exact Nat.mod_lt _ (by positivity)
  have h2 : (r + p.round (j + 1) ((l + p.round j r) &&& p.a_mask)) &&& p.b_mask < 2 ^ B := by
    rw [mask_eq_mod_b p B hB]
    exact Nat.mod_lt _ (by positivity)
  exact specSteps_pair_shape p hA B hB k (j + 2) _ _ (by omega) h1 h2

theorem invSteps_pair (p : PerfectRng) (n j : Nat) (lr : Nat × Nat) :
    p.invSteps (n + 2) j lr = p.invStep j (p.invStep (j + 1) (p.invSteps n (j + 2) lr)) := by
  rw [invSteps_succ, invSteps_succ]

/-- `invSteps` is a left inverse of `specSteps` over pairs of steps started
at an odd round index on masked halves. -/
theorem invSteps_specSteps (p : PerfectRng) (hA : p.a_mask + 1 = 2 ^ p.a_bits)
    (B : Nat) (hB : p.b_mask + 1 = 2 ^ B) :
    ∀ k j l r, j % 2 = 1 → l < 2 ^ p.a_bits → r < 2 ^ B →
      p.invSteps (2 * k) j (p.specSteps (2 * k) j (l, r)) = (l, r) := by
  intro k
  induction k with
  | zero => intro j l r _ _ _; rfl
  | succ k ih =>
    intro j l r hj hl hr
    rw [show 2 * (k + 1) = 2 * k + 2 from by omega, specSteps_pair p _ j hj, invSteps_pair]
    have h1 : (l + p.round j r) &&& p.a_mask < 2 ^ p.a_bits := by
      rw [mask_eq_mod_a p hA]
      exact Nat.mod_lt _ (by positivity)
    have h2 : (r + p.round (j + 1) ((l + p.round j r) &&& p.a_mask)) &&& p.b_mask < 2 ^ B := by
      rw [mask_eq_mod_b p B hB]
      exact Nat.mod_lt _ (by positivity)
    rw [ih (j + 2) _ _ (by omega) h1 h2]
    have e1 : ((l + p.round j r) &&& p.a_mask,
        (r + p.round (j + 1) ((l + p.round j r) &&& p.a_mask)) &&& p.b_mask) =
          p.specStep (j + 1) (r, (l + p.round j r) &&& p.a_mask) := by
      rw [specStep_eq, if_neg (by omega : ¬ (j + 1) % 2 ≠ 0)]
    rw [e1, invStep_specStep_b p B hB (j + 1) r _ (by omega) hr]
    have e2 : (r, (l + p.round j r) &&& p.a_mask) = p.specStep j (l, r) := by
      rw [specStep_eq, if_pos (by omega : j % 2 ≠ 0)]
    rw [e2, invStep_specStep_a p hA j l r hj hl]

/-! ### `encrypt` is a bijection of the superset for even round counts -/

/-- Recombining masked halves stays inside the superset. -/
theorem combine_lt {A B x y : Nat} (hx : x < 2 ^ A) (hy : y < 2 ^ B) :
    (y <<< A) + x < 2 ^ A * 2 ^ B := by
  rw [Nat.shiftLeft_eq]
  calc y * 2 ^ A + x < y * 2 ^ A + 2 ^ A := by omega
    _ = (y + 1) * 2 ^ A := by ring
    _ ≤ 2 ^ B * 2 ^ A := Nat.mul_le_mul_right _ hy
    _ = 2 ^ A * 2 ^ B := Nat.mul_comm _ _

/-- For an even round count, `encrypt` is the even recombination of the spec
steps computed by the loop. -/
theorem encrypt_even_eq (p : PerfectRng) (he : p.rounds % 2 = 0) (m : Nat) :
    p.encrypt m =
      ((p.specSteps (2 * ((p.rounds + 1) / 2)) 1 (m &&& p.a_mask, m >>> p.a_bits)).2
          <<< p.a_bits) +
        (p.specSteps (2 * ((p.rounds + 1) / 2)) 1 (m &&& p.a_mask, m >>> p.a_bits)).1 := by
  rw [encrypt_spec_form]
  simp only [PerfectRng.encryptSteps]
  rw [if_neg (by omega)]

/-- The split of any input into `(m &&& a_mask, m >>> a_bits)` lands in the
masked product whenever `m` is in the superset. -/
theorem split_shape (p : PerfectRng) (hA : p.a_mask + 1 = 2 ^ p.a_bits)
    (B : Nat) (hB : p.b_mask + 1 = 2 ^ B) (m : Nat) (hm : m < 2 ^ p.a_bits * 2 ^ B) :
    m &&& p.a_mask < 2 ^ p.a_bits ∧ m >>> p.a_bits < 2 ^ B := by
  constructor
  · rw [mask_eq_mod_a p hA]
    exact Nat.mod_lt _ (by positivity)
  · rw [Nat.shiftRight_eq_div_pow]
    exact (Nat.div_lt_iff_lt_mul (by positivity)).mpr (by rw [Nat.mul_comm] at hm; exact hm)

/-- Recombination of the split is the identity. -/
theorem split_combine (p : PerfectRng) (hA : p.a_mask + 1 = 2 ^ p.a_bits) (m : Nat) :
    ((m >>> p.a_bits) <<< p.a_bits) + (m &&& p.a_mask) = m := by
  rw [mask_eq_mod_a p hA, Nat.shiftRight_eq_div_pow, Nat.shiftLeft_eq, Nat.mul_comm]
  exact Nat.div_add_mod m (2 ^ p.a_bits)

/-- For an even round count, `encrypt` maps the superset into itself. -/
theorem encrypt_even_lt (p : PerfectRng) (hA : p.a_mask + 1 = 2 ^ p.a_bits)
    (B : Nat) (hB : p.b_mask + 1 = 2 ^ B) (he : p.rounds % 2 = 0)
    (m : Nat) (hm : m < 2 ^ p.a_bits * 2 ^ B) :
    p.encrypt m < 2 ^ p.a_bits * 2 ^ B := by
  obtain ⟨hl, hr⟩ := split_shape p hA B hB m hm
  obtain ⟨s1, s2⟩ := specSteps_pair_shape p hA B hB ((p.rounds + 1) / 2) 1 _ _ (by omega) hl hr
  rw [encrypt_even_eq p he m]
  exact combine_lt s1 s2

/-- For an even, positive round count, `encrypt` sends every input — also
outside the superset — into the superset. -/
theorem encrypt_even_absorb (p : PerfectRng) (hA : p.a_mask + 1 = 2 ^ p.a_bits)
    (B : Nat) (hB : p.b_mask + 1 = 2 ^ B) (he : p.rounds % 2 = 0)
    (hpos : 0 < p.rounds) (m : Nat) :
    p.encrypt m < 2 ^ p.a_bits * 2 ^ B := by
  rw [encrypt_even_eq p he m]
  have hk : (p.rounds + 1) / 2 = ((p.rounds + 1) / 2 - 1) + 1 := by omega
  rw [hk]
  obtain ⟨s1, s2⟩ := specSteps_pair_absorb p hA B hB ((p.rounds + 1) / 2 - 1) 1
    (m &&& p.a_mask) (m >>> p.a_bits) (by omega)
  exact combine_lt s1 s2

/-- `decryptEven` inverts `encrypt` on the superset when the round count is
even. -/
theorem decryptEven_encrypt (p : PerfectRng) (hA : p.a_mask + 1 = 2 ^ p.a_bits)
    (B : Nat) (hB : p.b_mask + 1 = 2 ^ B) (he : p.rounds % 2 = 0)
    (m : Nat) (hm : m < 2 ^ p.a_bits * 2 ^ B) :
    p.decryptEven (2 * ((p.rounds + 1) / 2)) (p.encrypt m) = m := by
  obtain ⟨hl, hr⟩ := split_shape p hA B hB m hm
  obtain ⟨s1, s2⟩ := specSteps_pair_shape p hA B hB ((p.rounds + 1) / 2) 1 _ _ (by omega) hl hr
  rw [encrypt_even_eq p he m]
  simp only [PerfectRng.decryptEven]
  have e1 : (((p.specSteps (2 * ((p.rounds + 1) / 2)) 1 (m &&& p.a_mask, m >>> p.a_bits)).2
      <<< p.a_bits) +
        (p.specSteps (2 * ((p.rounds + 1) / 2)) 1 (m &&& p.a_mask, m >>> p.a_bits)).1)
      &&& p.a_mask =
      (p.specSteps (2 * ((p.rounds + 1) / 2)) 1 (m &&& p.a_mask, m >>> p.a_bits)).1 := by
    rw [mask_eq_mod_a p hA, Nat.shiftLeft_eq, Nat.mul_comm, Nat.mul_add_mod,
      Nat.mod_eq_of_lt s1]
  have e2 : (((p.specSteps (2 * ((p.rounds + 1) / 2)) 1 (m &&& p.a_mask, m >>> p.a_bits)).2
      <<< p.a_bits) +
        (p.specSteps (2 * ((p.rounds + 1) / 2)) 1 (m &&& p.a_mask, m >>> p.a_bits)).1)
      >>> p.a_bits =
      (p.specSteps (2 * ((p.rounds + 1) / 2)) 1 (m &&& p.a_mask, m >>> p.a_bits)).2 := by
    rw [Nat.shiftRight_eq_div_pow, Nat.shiftLeft_eq, Nat.mul_comm,
      Nat.mul_add_div (by positivity), Nat.div_eq_of_lt s1, Nat.add_zero]
  rw [e1, e2, Prod.mk.eta, invSteps_specSteps p hA B hB ((p.rounds + 1) / 2) 1 _ _
    (by omega) hl hr]
  show ((m >>> p.a_bits) <<< p.a_bits) + (m &&& p.a_mask) = m
  exact split_combine p hA m

/-- For an even round count, `encrypt` is injective on the superset. -/
theorem encrypt_injOn (p : PerfectRng) (hA : p.a_mask + 1 = 2 ^ p.a_bits)
    (B : Nat) (hB : p.b_mask + 1 = 2 ^ B) (he : p.rounds % 2 = 0) :
    Set.InjOn p.encrypt (Set.Iio (2 ^ p.a_bits * 2 ^ B)) := by
  intro x hx y hy hxy
  have h1 := decryptEven_encrypt p hA B hB he x (Set.mem_Iio.mp hx)
  have h2 := decryptEven_encrypt p hA B hB he y (Set.mem_Iio.mp hy)
  rw [← h1, ← h2, hxy]

/-- For an even round count, `encrypt` is a bijection of the superset. -/
theorem encrypt_bijOn_pow (p : PerfectRng) (hA : p.a_mask + 1 = 2 ^ p.a_bits)
    (B : Nat) (hB : p.b_mask + 1 = 2 ^ B) (he : p.rounds % 2 = 0) :
    Set.BijOn p.encrypt (Set.Iio (2 ^ p.a_bits * 2 ^ B))
      (Set.Iio (2 ^ p.a_bits * 2 ^ B)) := by
  have hmaps : Set.MapsTo p.encrypt (Set.Iio (2 ^ p.a_bits * 2 ^ B))
      (Set.Iio (2 ^ p.a_bits * 2 ^ B)) := fun x hx =>
    Set.mem_Iio.mpr (encrypt_even_lt p hA B hB he x (Set.mem_Iio.mp hx))
  exact ((Set.finite_Iio _).injOn_iff_bijOn_of_mapsTo hmaps).mp
    (encrypt_injOn p hA B hB he)

/-- C3 amended: for every `u64` range, every seed, and every EVEN round
count, `encrypt` is a bijection of the superset
`[0, (a_mask + 1) * (b_mask + 1))`.  (For odd round counts this fails — see
the counterexample.) -/
theorem encrypt_bijOn_superset_even_rounds (range seed rounds : Nat)
    (hr : range ≤ 2 ^ 64) (he : rounds % 2 = 0) :
    Set.BijOn (PerfectRng.new range seed rounds).encrypt
      (Set.Iio (((PerfectRng.new range seed rounds).a_mask + 1) *
        ((PerfectRng.new range seed rounds).b_mask + 1)))
      (Set.Iio (((PerfectRng.new range seed rounds).a_mask + 1) *
        ((PerfectRng.new range seed rounds).b_mask + 1))) := by
  have hA := new_a_mask_pow range seed rounds hr
  obtain ⟨B, hB⟩ := new_b_mask_pow range seed rounds hr
  rw [hA, hB]
  exact encrypt_bijOn_pow _ hA B hB (by rw [new_rounds_eq]; exact he)

/-- Witness for `encrypt_bijOn_superset_even_rounds` at
`range = 16, seed = 0, rounds = 4`. -/
theorem encrypt_bijOn_superset_even_rounds_witness :
    (16 : Nat) ≤ 2 ^ 64 ∧ 4 % 2 = 0 ∧
      Set.BijOn (PerfectRng.new 16 0 4).encrypt
        (Set.Iio (((PerfectRng.new 16 0 4).a_mask + 1) *
          ((PerfectRng.new 16 0 4).b_mask + 1)))
        (Set.Iio (((PerfectRng.new 16 0 4).a_mask + 1) *
          ((PerfectRng.new 16 0 4).b_mask + 1))) :=
  ⟨by decide, by decide, encrypt_bijOn_superset_even_rounds 16 0 4 (by decide) (by decide)⟩

/-! ### Termination of the cycle walk for even round counts -/

/-- The cycle-walk loop returns as soon as some iterate of `encrypt` within
the fuel budget drops below `range`. -/
theorem shuffleGo_of_iterate (p : PerfectRng) :
    ∀ fuel c, (∃ k, k ≤ fuel ∧ p.encrypt^[k] c < p.range) →
      ∃ v, p.shuffleGo fuel c = some v ∧ v < p.range := by
  intro fuel
  induction fuel with
  | zero =>
    intro c hex
    obtain ⟨k, hk, hlt⟩ := hex
    rw [Nat.le_zero.mp hk, Function.iterate_zero_apply] at hlt
    rw [PerfectRng.shuffleGo_zero, if_pos hlt]
    exact ⟨c, rfl, hlt⟩
  | succ fuel ih =>
    intro c hex
    obtain ⟨k, hk, hlt⟩ := hex
    by_cases hc : c < p.range
    · rw [PerfectRng.shuffleGo_succ, if_pos hc]
      exact ⟨c, rfl, hc⟩
    · rw [PerfectRng.shuffleGo_succ, if_neg hc]
      apply ih
      cases k with
      | zero =>
        rw [Function.iterate_zero_apply] at hlt
        exact absurd hlt hc
      | succ k =>
        rw [Function.iterate_succ_apply] at hlt
        exact ⟨k, by omega, hlt⟩

/-- For an even, positive round count, the walk started at `encrypt i` from a
valid `i` reaches a value `< range` within at most superset-many steps:
`encrypt` permutes the superset, so the orbit of `i` returns to `i` itself. -/
theorem exists_return_lt (p : PerfectRng) (hA : p.a_mask + 1 = 2 ^ p.a_bits)
    (B : Nat) (hB : p.b_mask + 1 = 2 ^ B) (he : p.rounds % 2 = 0)
    (hpos : 0 < p.rounds) (i : Nat) (hi : i < p.range) :
    ∃ k, k ≤ 2 ^ p.a_bits * 2 ^ B ∧ p.encrypt^[k] (p.encrypt i) < p.range := by
  by_cases hc : p.encrypt i < p.range
  · exact ⟨0, Nat.zero_le _, by rwa [Function.iterate_zero_apply]⟩
  · have hEi : p.encrypt i < 2 ^ p.a_bits * 2 ^ B :=
      encrypt_even_absorb p hA B hB he hpos i
    have hge : p.range ≤ p.encrypt i := Nat.le_of_not_lt hc
    have hiN : i < 2 ^ p.a_bits * 2 ^ B := by omega
    have hmaps : Set.MapsTo p.encrypt (Set.Iio (2 ^ p.a_bits * 2 ^ B))
        (Set.Iio (2 ^ p.a_bits * 2 ^ B)) := fun x hx =>
      Set.mem_Iio.mpr (encrypt_even_lt p hA B hB he x (Set.mem_Iio.mp hx))
    have hinj : Set.InjOn p.encrypt (Set.Iio (2 ^ p.a_bits * 2 ^ B)) :=
      encrypt_injOn p hA B hB he
    have main : ∀ a b : Nat, a < b → b ≤ 2 ^ p.a_bits * 2 ^ B →
        p.encrypt^[a] i = p.encrypt^[b] i →
        ∃ k, k ≤ 2 ^ p.a_bits * 2 ^ B ∧ p.encrypt^[k] (p.encrypt i) < p.range := by
      intro a b hab hbN heq
      have hmem : i ∈ Set.Iio (2 ^ p.a_bits * 2 ^ B) := Set.mem_Iio.mpr hiN
      have hret : p.encrypt^[b - a] i = i := by
        have h1 : p.encrypt^[a] (p.encrypt^[b - a] i) = p.encrypt^[a] i := by
          rw [← Function.iterate_add_apply, show a + (b - a) = b from by omega]
          exact heq.symm
        exact hinj.iterate hmaps a (hmaps.iterate (b - a) hmem) hmem h1
      refine ⟨b - a - 1, by omega, ?_⟩
      have hstep : p.encrypt^[b - a - 1] (p.encrypt i) = p.encrypt^[b - a] i := by
        rw [← Function.iterate_succ_apply]
        congr 1
        omega
      rw [hstep, hret]
      exact hi
    have hmapsF : ∀ k ∈ Finset.range (2 ^ p.a_bits * 2 ^ B + 1),
        p.encrypt^[k] i ∈ Finset.range (2 ^ p.a_bits * 2 ^ B) := by
      intro k _
      exact Finset.mem_range.mpr (Set.mem_Iio.mp (hmaps.iterate k (Set.mem_Iio.mpr hiN)))
    obtain ⟨a, ha, b, hb, hab, heq⟩ :=
      Finset.exists_ne_map_eq_of_card_lt_of_maps_to (by simp) hmapsF
    rcases Nat.lt_or_ge a b with h | h
    · exact main a b h (by have := Finset.mem_range.mp hb; omega) heq
    · have hba : b < a := by omega
      exact main b a hba (by have := Finset.mem_range.mp ha; omega) heq.symm

/-- C8 amended: for every `u64` range `> 0`, every seed, and every positive
EVEN round count, the cycle walk terminates on every valid input and the
returned value is `< range`.  (For odd round counts the walk can diverge —
see the counterexample.) -/
theorem shuffle_terminates_even_rounds (range seed rounds : Nat) (hr : range ≤ 2 ^ 64)
    (h0 : 0 < range) (hpos : 0 < rounds) (he : rounds % 2 = 0)
    (i : Nat) (hi : i < range) :
    ∃ fuel v, (PerfectRng.new range seed rounds).shuffle fuel i = some v ∧ v < range := by
  have hA := new_a_mask_pow range seed rounds hr
  obtain ⟨B, hB⟩ := new_b_mask_pow range seed rounds hr
  have he' : (PerfectRng.new range seed rounds).rounds % 2 = 0 := he
  have hpos' : 0 < (PerfectRng.new range seed rounds).rounds := hpos
  have hi' : i < (PerfectRng.new range seed rounds).range := hi
  obtain ⟨k, hk, hlt⟩ := exists_return_lt (PerfectRng.new range seed rounds)
    hA B hB he' hpos' i hi'
  obtain ⟨v, hv, hvlt⟩ := shuffleGo_of_iterate (PerfectRng.new range seed rounds)
    (2 ^ (PerfectRng.new range seed rounds).a_bits * 2 ^ B)
    ((PerfectRng.new range seed rounds).encrypt i) ⟨k, hk, hlt⟩
  exact ⟨2 ^ (PerfectRng.new range seed rounds).a_bits * 2 ^ B, v, hv, hvlt⟩

/-- Witness for `shuffle_terminates_even_rounds` at
`range = 10, seed = 0, rounds = 4, i = 3`. -/
theorem shuffle_terminates_even_rounds_witness :
    (10 : Nat) ≤ 2 ^ 64 ∧ 0 < 10 ∧ 0 < 4 ∧ 4 % 2 = 0 ∧ 3 < 10 ∧
      ∃ fuel v, (PerfectRng.new 10 0 4).shuffle fuel 3 = some v ∧ v < 10 :=
  ⟨by decide, by decide, by decide, by decide, by decide,
    shuffle_terminates_even_rounds 10 0 4 (by decide) (by decide) (by decide) (by decide)
      3 (by decide)⟩
